import Mathlib

/-!
# daqflex (mc1608fs-plus/daqflex.c): sizing, scaling, formatting and half-buffer handoff

A shallow embedding of the parts of `daqflex.c` that carry numeric and ordering
obligations:

* the buffer sizing rule of `main` (lines 206-224), on 32-bit machine integers;
* `scaleAndCalibrateData` (lines 59-76), once with `float` arithmetic read exactly over
  `ℚ` and once in binary32 arithmetic with the `unsigned short` conversion of the count
  (`scaleAndCalibrateDataFloat`);
* `displayAndWriteData` (lines 79-106), as the sequence of calls made on `output`
  together with the sample indices it reads;
* the fixed character offsets of `fillCalConstants` (lines 31-56);
* the body of the poll loop of `main` (lines 399-422).
-/

namespace Daqflex

/-! ## Machine integers -/

/-- Conversion of a mathematical integer to a 32-bit two's-complement `int`
(the value gcc gives on conversion from `unsigned int`, and on wrapping signed
arithmetic). -/
def wrapInt (x : Int) : Int := (x + 2147483648) % 4294967296 - 2147483648

/-! ## The sizing rule of `main` -/

/-- Lines 209-213 of `main`: `points=num_channels*rate` is an `unsigned int` product
(both operands reduced modulo `2^32`) stored into the `int points`; then the clamp to
128 and the rounding `((points+127)/128)*128`, with C's truncating division. -/
def points (num_channels : Nat) (rate : Int) : Int :=
  let points := wrapInt (((num_channels : Int) % 4294967296 * (rate % 4294967296)) % 4294967296)
  let points := if points < 128 then 128 else points
  wrapInt ((wrapInt (points + 127)).tdiv 128 * 128)

/-- Line 218 of `main`: `buffer_size=points*2*2`. -/
def buffer_size (num_channels : Nat) (rate : Int) : Int :=
  wrapInt (wrapInt (points num_channels rate * 2) * 2)

/-- Line 220 of `main`: the condition `buffer_size%64!=0` guarding the
"ERROR!  Bad buffer size!" message (`%` is C's truncating remainder). -/
def bad_buffer_size (num_channels : Nat) (rate : Int) : Bool :=
  (buffer_size num_channels rate).tmod 64 != 0

/-! ## Scaling and calibration -/

/-- Lines 59-76: `scaleAndCalibrateData`.  `data` is the value of the
`unsigned short` argument (a count in `0 .. 65535`); the `float` arithmetic is read
exactly, over `ℚ`. -/
def scaleAndCalibrateData (data : Nat) (minVoltage maxVoltage scale offset : ℚ)
    (maxCounts : Int) : ℚ :=
  let fullScale := maxVoltage - minVoltage
  let calibratedData := (data : ℚ) * scale + offset
  let scaledAndCalibratedData := (calibratedData / (maxCounts : ℚ)) * fullScale + minVoltage
  scaledAndCalibratedData

/-- Rounding of a rational to the nearest integer, ties to the even one (the rounding
of IEEE 754 arithmetic in its default mode). -/
def roundHalfEven (y : ℚ) : Int :=
  let f := ⌊y⌋
  if y - f < 1 / 2 then f
  else if 1 / 2 < y - f then f + 1
  else if f % 2 = 0 then f else f + 1

/-- The value of C's `float` (IEEE 754 binary32) nearest to `x`, ties to even: for
`2^e <= |x| < 2^(e+1)` the representable values are the multiples of `2^(e-23)`, and of
`2^(-149)` below the least normal number `2^(-126)`.  Results of magnitude `2^128` and
more (infinities in C), NaN and the sign of zero are not represented. -/
def roundBinary32 (x : ℚ) : ℚ :=
  if x = 0 then 0
  else
    let e := max (Int.log 2 |x|) (-126)
    (roundHalfEven (x / 2 ^ (e - 23)) : ℚ) * 2 ^ (e - 23)

/-- Lines 59-76: `scaleAndCalibrateData` in the arithmetic of the machine.  The argument
for `data` is converted to `unsigned short` (modulo 65536), the arguments for the
`float` parameters to binary32, and every `float` operation (the two casts, `*`, `+`,
`/`, `-`) is rounded to binary32. -/
def scaleAndCalibrateDataFloat (data : Nat) (minVoltage maxVoltage scale offset : ℚ)
    (maxCounts : Int) : ℚ :=
  let data := data % 65536
  let minVoltage := roundBinary32 minVoltage
  let maxVoltage := roundBinary32 maxVoltage
  let scale := roundBinary32 scale
  let offset := roundBinary32 offset
  let fullScale := roundBinary32 (maxVoltage - minVoltage)
  let calibratedData := roundBinary32 (roundBinary32 (roundBinary32 (data : ℚ) * scale) + offset)
  let scaledAndCalibratedData :=
    roundBinary32 (roundBinary32 (roundBinary32 (calibratedData / roundBinary32 (maxCounts : ℚ))
      * fullScale) + minVoltage)
  scaledAndCalibratedData

/-- Line 132: `#define MODE_DIFFERENTIAL 0`. -/
def MODE_DIFFERENTIAL : Int := 0

/-- Line 133: `#define MODE_SINGLE_ENDED 1`. -/
def MODE_SINGLE_ENDED : Int := 1

/-- Lines 320-331 of `main`: the globals `(minVoltage, maxVoltage)` set for the
scan range chosen from `mode`. -/
def voltageRange (mode : Int) : Int × Int :=
  if mode = MODE_SINGLE_ENDED then (-10, 10) else (-5, 5)

/-! ## Calibration queries (`fillCalConstants`) -/

/-- The file-scope globals of lines 21-24: `calSlope`, `calOffset` (arrays of 16
`float`, here total maps from the index to an exact value; the array bound is not
modelled) and `minVoltage`, `maxVoltage`. -/
structure Globals where
  calSlope : Nat → ℚ
  calOffset : Nat → ℚ
  minVoltage : Int
  maxVoltage : Int

/-- Rendering of a non-negative number by the `%d` conversion of `sprintf`. -/
def decimal (n : Nat) : List Char := Nat.toDigits 10 n

/-- Line 41: `sprintf(slope_string,"?AI{%d}:SLOPE",currentChan)`. -/
def slope_string (currentChan : Nat) : List Char :=
  "?AI\x7b".toList ++ decimal currentChan ++ "\x7d:SLOPE".toList

/-- Line 42: `sprintf(offset_string,"?AI{%d}:OFFSET",currentChan)`. -/
def offset_string (currentChan : Nat) : List Char :=
  "?AI\x7b".toList ++ decimal currentChan ++ "\x7d:OFFSET".toList

/-- Line 47: the text `response+12` handed to `atof` for the slope. -/
def slopeText (response : List Char) : List Char := response.drop 12

/-- Line 50: the text `response+13` handed to `atof` for the offset. -/
def offsetText (response : List Char) : List Char := response.drop 13

/-- Lines 40-50: one pass of the `for` loop of `fillCalConstants`.  `sendMessage` is the
device's reply to a message and `atof` the C library conversion, both parameters. -/
def fillCalBody (sendMessage : List Char → List Char) (atof : List Char → ℚ)
    (g : Globals) (currentChan : Nat) : Globals :=
  let response := sendMessage (slope_string currentChan)
  let g := { g with
    calSlope := Function.update g.calSlope currentChan (atof (slopeText response)) }
  let response := sendMessage (offset_string currentChan)
  { g with calOffset := Function.update g.calOffset currentChan (atof (offsetText response)) }

/-- Lines 31-56: `fillCalConstants`, the loop
`for(currentChan=low_channel; currentChan <= high_channel; currentChan++)`. -/
def fillCalConstants (sendMessage : List Char → List Char) (atof : List Char → ℚ)
    (low_channel high_channel : Nat) (g : Globals) : Globals :=
  (List.range' low_channel (high_channel + 1 - low_channel)).foldl
    (fillCalBody sendMessage atof) g

/-- Modelled from the spec: the device's reply to a slope query for channel `c`, of the
form `AI{<c>}:SLOPE=<v>` (the device firmware is outside the repository). -/
def slopeResponse (c : Nat) (v : List Char) : List Char :=
  "AI\x7b".toList ++ decimal c ++ "\x7d:SLOPE=".toList ++ v

/-- Modelled from the spec: the device's reply to an offset query for channel `c`, of
the form `AI{<c>}:OFFSET=<v>`. -/
def offsetResponse (c : Nat) (v : List Char) : List Char :=
  "AI\x7b".toList ++ decimal c ++ "\x7d:OFFSET=".toList ++ v

/-! ## Formatting (`displayAndWriteData`) -/

/-- The calls made on `output` by `displayAndWriteData`. -/
inductive Output where
  /-- Line 95: `fwrite(&fixedData,sizeof(float),1,output)`. -/
  | fwriteFloat (fixedData : ℚ)
  /-- Line 99: `fprintf(output,"%lf,",fixedData)`. -/
  | fprintfValue (fixedData : ℚ)
  /-- Line 104: `fprintf(output,"\n")`. -/
  | fprintfNewline
  deriving DecidableEq

/-- Local state of `displayAndWriteData`: the counter `currentData`, the calls made on
`output` so far, and the indices of `buffer.data` read so far. -/
structure DisplayState where
  currentData : Nat
  written : List Output
  reads : List Nat
  deriving DecidableEq

/-- Lines 88-102: the body of the `for` loop.  `mem` is the content of `buffer.data`
and `data` the offset of the pointer argument into it, so that `data[currentData]` is
`mem (data + currentData)`. -/
def displayForBody (g : Globals) (mem : Nat → Nat) (data : Nat) (maxCounts : Int)
    (binary_output : Bool) (st : DisplayState) (currentChan : Nat) : DisplayState :=
  let fixedData := scaleAndCalibrateData (mem (data + st.currentData))
    (g.minVoltage : ℚ) (g.maxVoltage : ℚ) (g.calSlope currentChan) (g.calOffset currentChan)
    maxCounts
  { currentData := st.currentData + 1
    written := st.written ++
      [if binary_output then Output.fwriteFloat fixedData else Output.fprintfValue fixedData]
    reads := st.reads ++ [data + st.currentData] }

/-- Lines 87-104: the body of the `while` loop: the `for` loop over
`currentChan = 0 .. num_channels-1`, then the newline in CSV mode. -/
def displayWhileBody (g : Globals) (mem : Nat → Nat) (data : Nat) (num_channels : Int)
    (maxCounts : Int) (binary_output : Bool) (st : DisplayState) : DisplayState :=
  let st := (List.range num_channels.toNat).foldl
    (displayForBody g mem data maxCounts binary_output) st
  if binary_output then st else { st with written := st.written ++ [Output.fprintfNewline] }

/-- Lines 86-105: the loop `while (currentData < transferred)`, with fuel; `none` when
the fuel runs out. -/
def displayWhile (g : Globals) (mem : Nat → Nat) (data : Nat) (transferred num_channels : Int)
    (maxCounts : Int) (binary_output : Bool) : Nat → DisplayState → Option DisplayState
  | 0, _ => none
  | fuel + 1, st =>
    if (st.currentData : Int) < transferred then
      displayWhile g mem data transferred num_channels maxCounts binary_output fuel
        (displayWhileBody g mem data num_channels maxCounts binary_output st)
    else some st

/-- Lines 79-106: `displayAndWriteData`.  Every pass of the `while` body with
`num_channels >= 1` advances `currentData`, so `transferred + 1` passes are enough
fuel; the result is `none` only when the C loop does not terminate
(`num_channels <= 0 < transferred`). -/
def displayAndWriteData (g : Globals) (mem : Nat → Nat) (data : Nat)
    (transferred num_channels : Int) (maxCounts : Int) (binary_output : Bool) :
    Option DisplayState :=
  displayWhile g mem data transferred num_channels maxCounts binary_output
    (transferred.toNat + 1) ⟨0, [], []⟩

/-- Value of channel `j` in sample interval `i`, in the words of the formatting
contract: `data[i*num_channels + j]` scaled with `calSlope[j]` and `calOffset[j]`. -/
def intervalValue (g : Globals) (mem : Nat → Nat) (data : Nat) (num_channels : Nat)
    (maxCounts : Int) (i j : Nat) : ℚ :=
  scaleAndCalibrateData (mem (data + (i * num_channels + j)))
    (g.minVoltage : ℚ) (g.maxVoltage : ℚ) (g.calSlope j) (g.calOffset j) maxCounts

/-- One sample interval of output, in the words of the formatting contract: in CSV
mode one comma-terminated value per channel in ascending channel order, then a
newline; in binary mode one float per channel in the same order, with no separator. -/
def intervalRecord (g : Globals) (mem : Nat → Nat) (data : Nat) (num_channels : Nat)
    (maxCounts : Int) (binary_output : Bool) (i : Nat) : List Output :=
  if binary_output then
    (List.range num_channels).map
      (fun j => Output.fwriteFloat (intervalValue g mem data num_channels maxCounts i j))
  else
    (List.range num_channels).map
      (fun j => Output.fprintfValue (intervalValue g mem data num_channels maxCounts i j))
      ++ [Output.fprintfNewline]

/-- The output of `rows` sample intervals, in the words of the formatting contract:
the intervals `0 .. rows-1` in order, with nothing before, between or after them. -/
def intervalRecords (g : Globals) (mem : Nat → Nat) (data : Nat) (num_channels : Nat)
    (maxCounts : Int) (binary_output : Bool) (rows : Nat) : List Output :=
  (List.range rows).flatMap (intervalRecord g mem data num_channels maxCounts binary_output)

/-- State of `displayAndWriteData` after `rows` complete passes of its `while` body
(proof device). -/
def rowState (g : Globals) (mem : Nat → Nat) (data : Nat) (num_channels : Nat)
    (maxCounts : Int) (binary_output : Bool) (rows : Nat) : DisplayState :=
  { currentData := rows * num_channels
    written := intervalRecords g mem data num_channels maxCounts binary_output rows
    reads := (List.range (rows * num_channels)).map (fun k => data + k) }

/-! ## The poll loop of `main` -/

/-- Modelled from the spec: the two values `FIRSTHALF` and `SECONDHALF` of the
`lastHalfRead` flag; the constants are declared in `databuffer.h`, which is absent,
and only their being distinct is used. -/
inductive Half where
  | FIRSTHALF
  | SECONDHALF
  deriving DecidableEq

/-- A call `displayAndWriteData(&buffer.data[data], transferred, ...)` made by the poll
loop: the offset of its first argument into `buffer.data`, and its second argument. -/
structure DrainCall where
  data : Int
  transferred : Int
  deriving DecidableEq

/-- The variables of `main` that the poll loop updates: `lastHalfRead` and `counter`. -/
structure PollVars where
  lastHalfRead : Half
  counter : Int
  deriving DecidableEq

/-- Lines 399-422: one pass of the body of `while(!done)` after the `usleep`, for the
values `buffer.currIndex` and `buffer.numPoints` it observes: the updated variables and
the call to `displayAndWriteData` it makes, if any (`/` is C's truncating division;
`counter` is only incremented, never read, and its overflow is not modelled). -/
def pollBody (currIndex numPoints : Int) (v : PollVars) : PollVars × Option DrainCall :=
  if currIndex > numPoints.tdiv 2 ∧ v.lastHalfRead = Half.SECONDHALF then
    (⟨Half.FIRSTHALF, v.counter + 1⟩, some ⟨0, numPoints.tdiv 2⟩)
  else if currIndex < numPoints.tdiv 2 ∧ v.lastHalfRead = Half.FIRSTHALF then
    (⟨Half.SECONDHALF, v.counter + 1⟩, some ⟨numPoints.tdiv 2, numPoints.tdiv 2⟩)
  else (v, none)

/-- Modelled from the spec: one step of the synthetic writer of the handoff property; it
advances the write cursor by the transfer size `s`, wrapping modulo `numPoints` (the
background transfer loop itself, `poll_thread`, is absent). -/
def writerStep (numPoints s currIndex : Int) : Int := (currIndex + s) % numPoints

/-- State of the handoff: the write cursor `buffer.currIndex`, the poll loop's
variables, and the calls to `displayAndWriteData` made so far, in order. -/
structure HandoffState where
  currIndex : Int
  vars : PollVars
  drains : List DrainCall
  deriving DecidableEq

/-- One writer step followed by one pass of the poll loop body. -/
def handoffStep (numPoints s : Int) (st : HandoffState) : HandoffState :=
  let currIndex := writerStep numPoints s st.currIndex
  let r := pollBody currIndex numPoints st.vars
  { currIndex := currIndex, vars := r.1, drains := st.drains ++ r.2.toList }

/-- Lines 141, 151 and 271: `counter = 0`, `lastHalfRead = SECONDHALF`,
`buffer.currIndex=0`. -/
def handoffInit : HandoffState := ⟨0, ⟨Half.SECONDHALF, 0⟩, []⟩

/-- The handoff after `n` writer steps, each followed by a pass of the poll loop. -/
def handoffRun (numPoints s : Int) (n : Nat) : HandoffState :=
  (handoffStep numPoints s)^[n] handoffInit

/-- State reached `t` steps into a buffer cycle that starts with the cursor at 0 and
`lastHalfRead = SECONDHALF`, for a step `s` with `numPoints/2 = m*s` (proof device). -/
def cycleState (s : Int) (m : Nat) (c : Int) (d : List DrainCall) (t : Nat) : HandoffState :=
  if t ≤ m then ⟨t * s, ⟨Half.SECONDHALF, c⟩, d⟩
  else if t < 2 * m then ⟨t * s, ⟨Half.FIRSTHALF, c + 1⟩, d ++ [⟨0, m * s⟩]⟩
  else ⟨0, ⟨Half.SECONDHALF, c + 1 + 1⟩, d ++ [⟨0, m * s⟩] ++ [⟨m * s, m * s⟩]⟩

/-! ### Lemmas on the sizing rule -/

theorem wrapInt_of_range (x : Int) (h0 : -2147483648 ≤ x) (h1 : x < 2147483648) :
    wrapInt x = x := by
  unfold wrapInt
  omega

theorem wrapInt_mul_128_emod (k : Int) : wrapInt (k * 128) % 128 = 0 := by
  unfold wrapInt
  omega

theorem points_emod_128 (num_channels : Nat) (rate : Int) :
    points num_channels rate % 128 = 0 := by
  unfold points
  exact wrapInt_mul_128_emod _

theorem buffer_size_emod_512 (num_channels : Nat) (rate : Int) :
    buffer_size num_channels rate % 512 = 0 := by
  have h := points_emod_128 num_channels rate
  unfold buffer_size wrapInt
  omega

/-- Without overflow the machine computation of `points` is the plain rounding of
`max (num_channels*rate) 128` up to a multiple of 128. -/
theorem points_eq (num_channels : Nat) (rate : Int) (hr : 0 ≤ rate)
    (hov : (num_channels : Int) * rate + 127 < 536870912) :
    points num_channels rate = (max ((num_channels : Int) * rate) 128 + 127) / 128 * 128 := by
  have hp : 0 ≤ (num_channels : Int) * rate := Int.mul_nonneg (Int.ofNat_nonneg _) hr
  unfold points
  rw [← Int.mul_emod]
  generalize (num_channels : Int) * rate = p at hp hov ⊢
  have e1 : wrapInt (p % 4294967296) = p := by
    unfold wrapInt
    omega
  simp only [e1]
  have e2 : (if p < 128 then (128 : Int) else p) = max p 128 := by
    split <;> omega
  rw [e2]
  have hm : 128 ≤ max p 128 := le_max_right _ _
  have hm2 : max p 128 + 127 < 536870912 := by
    rcases max_cases p 128 with ⟨h, _⟩ | ⟨h, _⟩ <;> omega
  generalize max p 128 = q at hm hm2 ⊢
  rw [wrapInt_of_range (q + 127) (by omega) (by omega)]
  rw [Int.tdiv_eq_ediv (by omega) (by omega)]
  rw [wrapInt_of_range _ (by omega) (by omega)]

theorem buffer_size_eq (num_channels : Nat) (rate : Int) (hr : 0 ≤ rate)
    (hov : (num_channels : Int) * rate + 127 < 536870912) :
    buffer_size num_channels rate = points num_channels rate * 2 * 2 := by
  have h := points_eq num_channels rate hr hov
  have hp : 0 ≤ (num_channels : Int) * rate := Int.mul_nonneg (Int.ofNat_nonneg _) hr
  unfold buffer_size
  generalize (num_channels : Int) * rate = p at hp hov h
  have hm2 : 128 ≤ max p 128 ∧ max p 128 + 127 < 536870912 := by
    rcases max_cases p 128 with ⟨h, _⟩ | ⟨h, _⟩ <;> omega
  generalize max p 128 = q at hm2 h
  rw [wrapInt_of_range (points num_channels rate * 2) (by omega) (by omega)]
  rw [wrapInt_of_range _ (by omega) (by omega)]

/-! ## Theorems on the sizing rule -/

/-- C2 (as stated, refuted): with 3 channels at rate 10 nothing overflows, the
sizing rule gives `buffer_size = 512`, and 512 is not a multiple of 3. -/
theorem buffer_size_not_multiple_of_num_channels :
    (3 : Int) * 10 + 127 < 536870912 ∧ points 3 10 = 128 ∧ buffer_size 3 10 = 512 ∧
      ¬ (((3 : Nat) : Int) ∣ buffer_size 3 10) := by
  decide

/-- C2 (amended): for every channel count that divides 512 (1, 2, 4, 8, 16, ...) and
every sample rate, `buffer_size` is a multiple of `num_channels`. -/
theorem buffer_size_multiple_of_num_channels (num_channels : Nat) (rate : Int)
    (h : num_channels ∣ 512) : (num_channels : Int) ∣ buffer_size num_channels rate := by
  have h1 : ((num_channels : Nat) : Int) ∣ ((512 : Nat) : Int) := Int.natCast_dvd_natCast.mpr h
  exact dvd_trans h1 (Int.dvd_of_emod_eq_zero (buffer_size_emod_512 num_channels rate))

theorem buffer_size_multiple_of_num_channels_witness :
    4 ∣ 512 ∧ ((4 : Nat) : Int) ∣ buffer_size 4 1000 :=
  ⟨by decide, buffer_size_multiple_of_num_channels 4 1000 (by decide)⟩

/-- C3: for every channel count and every sample rate (also when the 32-bit
arithmetic wraps), `buffer_size` is a multiple of 64, so the test
`buffer_size%64!=0` of `main` is false and the "Bad buffer size" branch is never
taken. -/
theorem buffer_size_multiple_of_64 (num_channels : Nat) (rate : Int) :
    (64 : Int) ∣ buffer_size num_channels rate ∧
      (buffer_size num_channels rate).tmod 64 = 0 ∧
      bad_buffer_size num_channels rate = false := by
  have h := buffer_size_emod_512 num_channels rate
  have hd : (64 : Int) ∣ buffer_size num_channels rate :=
    Int.dvd_of_emod_eq_zero (by omega)
  have ht : (buffer_size num_channels rate).tmod 64 = 0 := Int.tmod_eq_zero_of_dvd hd
  refine ⟨hd, ht, ?_⟩
  simp [bad_buffer_size, ht]

/-- C4: for every channel count `>= 1` and rate `>= 0` without integer overflow
(`num_channels*rate + 127 < 2^29`, which is exactly when `points*2*2` fits an `int`),
`points` is the least multiple of 128 that is `>= max(num_channels*rate, 128)` and
`buffer_size = points*2*2`; for 4 channels at rate 1000, `points = 4096` and
`buffer_size = 16384`. -/
theorem sizing_rule (num_channels : Nat) (rate : Int) (_hc : 1 ≤ num_channels)
    (hr : 0 ≤ rate) (hov : (num_channels : Int) * rate + 127 < 536870912) :
    (128 : Int) ∣ points num_channels rate ∧
      max ((num_channels : Int) * rate) 128 ≤ points num_channels rate ∧
      (∀ m : Int, 128 ∣ m → max ((num_channels : Int) * rate) 128 ≤ m →
        points num_channels rate ≤ m) ∧
      buffer_size num_channels rate = points num_channels rate * 2 * 2 ∧
      points 4 1000 = 4096 ∧ buffer_size 4 1000 = 16384 := by
  have hp := points_eq num_channels rate hr hov
  refine ⟨Int.dvd_of_emod_eq_zero (points_emod_128 num_channels rate), ?_, ?_,
    buffer_size_eq num_channels rate hr hov, by decide, by decide⟩
  · rw [hp]
    omega
  · intro m hm hle
    rw [hp]
    obtain ⟨k, rfl⟩ := hm
    omega

theorem sizing_rule_witness :
    (1 ≤ 4 ∧ (0 : Int) ≤ 1000 ∧ ((4 : Nat) : Int) * 1000 + 127 < 536870912) ∧
      (128 : Int) ∣ points 4 1000 ∧ points 4 1000 = 4096 ∧ buffer_size 4 1000 = 16384 :=
  have h := sizing_rule 4 1000 (by decide) (by decide) (by decide)
  ⟨by decide, h.1, h.2.2.2.2.1, h.2.2.2.2.2⟩

/-! ## Theorems on `scaleAndCalibrateData` -/

/-- C5: for `maxCounts != 0`, `scaleAndCalibrateData` returns
`((raw*slope + offset)/maxCounts)*(maxVoltage - minVoltage) + minVoltage`, and it is
affine in the raw count: `scale r = scale 0 + r*slope*(maxVoltage - minVoltage)/maxCounts`. -/
theorem scaleAndCalibrateData_affine (raw : Nat) (minVoltage maxVoltage slope offset : ℚ)
    (maxCounts : Int) (hM : maxCounts ≠ 0) :
    scaleAndCalibrateData raw minVoltage maxVoltage slope offset maxCounts
        = (((raw : ℚ) * slope + offset) / (maxCounts : ℚ)) * (maxVoltage - minVoltage)
          + minVoltage ∧
      scaleAndCalibrateData raw minVoltage maxVoltage slope offset maxCounts
        = scaleAndCalibrateData 0 minVoltage maxVoltage slope offset maxCounts
          + (raw : ℚ) * slope * (maxVoltage - minVoltage) / (maxCounts : ℚ) := by
  have hq : (maxCounts : ℚ) ≠ 0 := Int.cast_ne_zero.mpr hM
  refine ⟨rfl, ?_⟩
  simp only [scaleAndCalibrateData]
  field_simp
  ring

theorem scaleAndCalibrateData_affine_witness :
    (2047 : Int) ≠ 0 ∧
      scaleAndCalibrateData 100 (-5) 5 2 3 2047
        = scaleAndCalibrateData 0 (-5) 5 2 3 2047
          + ((100 : Nat) : ℚ) * 2 * (5 - (-5)) / ((2047 : Int) : ℚ) :=
  ⟨by decide, (scaleAndCalibrateData_affine 100 (-5) 5 2 3 2047 (by decide)).2⟩

/-! ### Binary32 rounding -/

theorem roundHalfEven_intCast (m : Int) : roundHalfEven (m : ℚ) = m := by
  simp [roundHalfEven]

theorem log_eq_of_binade (x : ℚ) (e : Int) (h1 : (2 : ℚ) ^ e ≤ |x|)
    (h2 : |x| < (2 : ℚ) ^ (e + 1)) : Int.log 2 |x| = e := by
  have hpos : 0 < |x| := lt_of_lt_of_le (zpow_pos (by norm_num) e) h1
  have a : e ≤ Int.log 2 |x| :=
    (Int.zpow_le_iff_le_log (by norm_num) hpos).mp (by simpa using h1)
  have b : Int.log 2 |x| < e + 1 :=
    (Int.lt_zpow_iff_log_lt (by norm_num) hpos).mp (by simpa using h2)
  omega

theorem roundBinary32_of_binade (x : ℚ) (e m : Int) (h1 : (2 : ℚ) ^ e ≤ |x|)
    (h2 : |x| < (2 : ℚ) ^ (e + 1)) (he : -126 ≤ e)
    (hm : roundHalfEven (x / 2 ^ (e - 23)) = m) :
    roundBinary32 x = (m : ℚ) * 2 ^ (e - 23) := by
  have hpos : 0 < |x| := lt_of_lt_of_le (zpow_pos (by norm_num) e) h1
  have hx : x ≠ 0 := abs_pos.mp hpos
  unfold roundBinary32
  rw [if_neg hx, log_eq_of_binade x e h1 h2, max_eq_left he]
  simp only [hm]

theorem roundBinary32_exact (x : ℚ) (e m : Int) (h1 : (2 : ℚ) ^ e ≤ |x|)
    (h2 : |x| < (2 : ℚ) ^ (e + 1)) (he : -126 ≤ e) (hm : x = (m : ℚ) * 2 ^ (e - 23)) :
    roundBinary32 x = x := by
  have hq : x / 2 ^ (e - 23) = (m : ℚ) := by
    rw [hm, mul_div_assoc, div_self (zpow_ne_zero _ (by norm_num)), mul_one]
  rw [roundBinary32_of_binade x e m h1 h2 he (by rw [hq, roundHalfEven_intCast]), ← hm]

theorem roundBinary32_intCast (n : Int) (hn : |n| ≤ 16777216) :
    roundBinary32 (n : ℚ) = n := by
  by_cases h0 : n = 0
  · simp [h0, roundBinary32]
  have habs : (1 : ℚ) ≤ |(n : ℚ)| := by
    have : (1 : Int) ≤ |n| := Int.one_le_abs h0
    exact_mod_cast this
  have hle : |(n : ℚ)| ≤ 16777216 := by exact_mod_cast hn
  have hpos : 0 < |(n : ℚ)| := lt_of_lt_of_le one_pos habs
  have h1 := Int.zpow_log_le_self (b := 2) (by norm_num) hpos
  have h2 := Int.lt_zpow_succ_log_self (b := 2) (by norm_num) |(n : ℚ)|
  have a : 0 ≤ Int.log 2 |(n : ℚ)| :=
    (Int.zpow_le_iff_le_log (by norm_num) hpos).mp (by simpa using habs)
  have b : Int.log 2 |(n : ℚ)| < 25 :=
    (Int.lt_zpow_iff_log_lt (by norm_num) hpos).mp
      (lt_of_le_of_lt hle (by norm_num))
  simp only [Nat.cast_ofNat] at h1 h2
  generalize Int.log 2 |(n : ℚ)| = e at h1 h2 a b
  by_cases h24 : e = 24
  · subst h24
    have hq : |(n : ℚ)| = 16777216 := le_antisymm hle (by norm_num at h1; exact h1)
    have hz : |n| = 16777216 := by exact_mod_cast hq
    have hd : ∃ m : Int, n = m * 2 := by
      rcases abs_cases n with ⟨h, _⟩ | ⟨h, _⟩
      · exact ⟨8388608, by omega⟩
      · exact ⟨-8388608, by omega⟩
    obtain ⟨m, rfl⟩ := hd
    exact roundBinary32_exact _ 24 m h1 h2 (by norm_num) (by push_cast; norm_num)
  · obtain ⟨k, hk⟩ : ∃ k : Nat, e - 23 = -(k : Int) := ⟨(23 - e).toNat, by omega⟩
    refine roundBinary32_exact _ e (n * 2 ^ k) h1 h2 (by omega) ?_
    rw [hk, zpow_neg, zpow_natCast]
    push_cast
    field_simp

/-- C6 (as stated, refuted): with identity calibration and `maxCounts = 65536 > 0`,
the raw count `maxCounts` converts to the `unsigned short` 0 and the result is
`minVoltage = -5`, not `maxVoltage = 5`; and with `maxCounts = 2047` and the range
`(-5, 0.1f)`, where `0.1f = 13421773/2^27` is a `float`, raw count 2047 gives
`209715/2^21 = 0.0999999046...`, not `maxVoltage`. -/
theorem scaleAndCalibrateDataFloat_endpoint_not_exact :
    (0 : Int) < 65536 ∧
      scaleAndCalibrateDataFloat 65536 (-5) 5 1 0 65536 = -5 ∧ (-5 : ℚ) ≠ 5 ∧
      (0 : Int) < 2047 ∧
      roundBinary32 (13421773 / 134217728) = 13421773 / 134217728 ∧
      scaleAndCalibrateDataFloat 2047 (-5) (13421773 / 134217728) 1 0 2047
        = 209715 / 2097152 ∧
      (209715 / 2097152 : ℚ) ≠ 13421773 / 134217728 := by
  have i : ∀ n : Int, |n| ≤ 16777216 → roundBinary32 (n : ℚ) = n := roundBinary32_intCast
  have r0 : roundBinary32 0 = 0 := by simp [roundBinary32]
  have r1 : roundBinary32 1 = 1 := by simpa using i 1 (by norm_num)
  have r5 : roundBinary32 5 = 5 := by simpa using i 5 (by norm_num)
  have rm5 : roundBinary32 (-5) = -5 := by simpa using i (-5) (by norm_num)
  have r10 : roundBinary32 10 = 10 := by simpa using i 10 (by norm_num)
  have r2047 : roundBinary32 2047 = 2047 := by simpa using i 2047 (by norm_num)
  have r65536 : roundBinary32 65536 = 65536 := by simpa using i 65536 (by norm_num)
  have rhi : roundBinary32 (13421773 / 134217728) = 13421773 / 134217728 :=
    roundBinary32_exact _ (-4) 13421773 (by norm_num [abs_of_pos]) (by norm_num [abs_of_pos])
      (by norm_num) (by norm_num)
  have rfs : roundBinary32 (13421773 / 134217728 - -5) = 10695475 / 2097152 := by
    have hm : roundHalfEven ((13421773 / 134217728 - -5) / 2 ^ ((2 : Int) - 23)) = 10695475 := by
      have hf : ⌊((13421773 / 134217728 - -5) / 2 ^ ((2 : Int) - 23) : ℚ)⌋ = 10695475 := by
        rw [Int.floor_eq_iff]
        norm_num
      unfold roundHalfEven
      simp only [hf]
      norm_num
    rw [roundBinary32_of_binade _ 2 10695475 (by norm_num [abs_of_pos])
      (by norm_num [abs_of_pos]) (by norm_num) hm]
    norm_num
  have rfs2 : roundBinary32 (10695475 / 2097152) = 10695475 / 2097152 :=
    roundBinary32_exact _ 2 10695475 (by norm_num [abs_of_pos]) (by norm_num [abs_of_pos])
      (by norm_num) (by norm_num)
  have rres : roundBinary32 (209715 / 2097152) = 209715 / 2097152 :=
    roundBinary32_exact _ (-4) 13421760 (by norm_num [abs_of_pos]) (by norm_num [abs_of_pos])
      (by norm_num) (by norm_num)
  refine ⟨by decide, ?_, by norm_num, by decide, rhi, ?_, by norm_num⟩
  · norm_num [scaleAndCalibrateDataFloat, r0, r1, r5, rm5, r10, r65536]
  · simp only [scaleAndCalibrateDataFloat, rhi, rm5, r1, r0, rfs]
    norm_num [r2047, r1, rfs2, rres]

/-- C6 (amended): in binary32 arithmetic, with identity calibration (slope 1, offset
0), any `maxCounts` with `0 < maxCounts <= 65535` (so that `maxCounts` is a 16-bit raw
count) and any integer `minVoltage`, `maxVoltage` whose magnitudes and difference are
at most `2^24` (as are the `int` globals `main` sets), raw count 0 maps to exactly
`minVoltage` and raw count `maxCounts` to exactly `maxVoltage`; in differential mode
`main` sets the range to `(-5, 5)`, and with `maxCounts = 2047` raw 0 gives `-5` and raw
2047 gives `5`. -/
theorem scaleAndCalibrateDataFloat_identity_endpoints (minVoltage maxVoltage maxCounts : Int)
    (hM : 0 < maxCounts) (hM2 : maxCounts ≤ 65535)
    (hmin : |minVoltage| ≤ 16777216) (hmax : |maxVoltage| ≤ 16777216)
    (hfs : |maxVoltage - minVoltage| ≤ 16777216) :
    scaleAndCalibrateDataFloat 0 minVoltage maxVoltage 1 0 maxCounts = minVoltage ∧
      scaleAndCalibrateDataFloat maxCounts.toNat minVoltage maxVoltage 1 0 maxCounts
        = maxVoltage ∧
      voltageRange MODE_DIFFERENTIAL = (-5, 5) ∧
      scaleAndCalibrateDataFloat 0 ((voltageRange MODE_DIFFERENTIAL).1 : ℚ)
        ((voltageRange MODE_DIFFERENTIAL).2 : ℚ) 1 0 2047 = -5 ∧
      scaleAndCalibrateDataFloat 2047 ((voltageRange MODE_DIFFERENTIAL).1 : ℚ)
        ((voltageRange MODE_DIFFERENTIAL).2 : ℚ) 1 0 2047 = 5 := by
  have key : ∀ (lo hi mc : Int), 0 < mc → mc ≤ 65535 → |lo| ≤ 16777216 → |hi| ≤ 16777216 →
      |hi - lo| ≤ 16777216 →
      scaleAndCalibrateDataFloat 0 lo hi 1 0 mc = lo ∧
        scaleAndCalibrateDataFloat mc.toNat lo hi 1 0 mc = hi := by
    intro lo hi mc h1 h2 h3 h4 h5
    have r0 : roundBinary32 0 = 0 := by simp [roundBinary32]
    have r1 : roundBinary32 1 = 1 := by
      have := roundBinary32_intCast 1 (by norm_num)
      simpa using this
    have rlo := roundBinary32_intCast lo h3
    have rhi := roundBinary32_intCast hi h4
    have rfs : roundBinary32 ((hi : ℚ) - lo) = (hi : ℚ) - lo := by
      have := roundBinary32_intCast (hi - lo) h5
      simpa using this
    have rmc : roundBinary32 (mc : ℚ) = mc :=
      roundBinary32_intCast mc (by rw [abs_of_pos h1]; omega)
    have hne : (mc : ℚ) ≠ 0 := Int.cast_ne_zero.mpr (ne_of_gt h1)
    have hmod : mc.toNat % 65536 = mc.toNat := Nat.mod_eq_of_lt (by omega)
    have hcast : ((mc.toNat : Nat) : ℚ) = (mc : ℚ) := by
      have : ((mc.toNat : Nat) : Int) = mc := Int.toNat_of_nonneg (le_of_lt h1)
      exact_mod_cast this
    constructor
    · simp [scaleAndCalibrateDataFloat, r0, r1, rlo]
    · simp only [scaleAndCalibrateDataFloat, hmod, hcast, r0, r1, rlo, rhi, rfs, rmc, mul_one,
        add_zero, div_self hne, one_mul]
      rw [sub_add_cancel, rhi]
  obtain ⟨k1, k2⟩ := key minVoltage maxVoltage maxCounts hM hM2 hmin hmax hfs
  have d := key (-5) 5 2047 (by norm_num) (by norm_num) (by norm_num) (by norm_num)
    (by norm_num)
  refine ⟨k1, k2, by decide, ?_, ?_⟩
  · have := d.1
    simpa [voltageRange, MODE_DIFFERENTIAL, MODE_SINGLE_ENDED] using this
  · have := d.2
    simpa [voltageRange, MODE_DIFFERENTIAL, MODE_SINGLE_ENDED] using this

theorem scaleAndCalibrateDataFloat_identity_endpoints_witness :
    ((0 : Int) < 4095 ∧ (4095 : Int) ≤ 65535 ∧ |(-10 : Int)| ≤ 16777216 ∧
        |(10 : Int)| ≤ 16777216 ∧ |(10 : Int) - (-10)| ≤ 16777216) ∧
      scaleAndCalibrateDataFloat 0 ((-10 : Int) : ℚ) ((10 : Int) : ℚ) 1 0 4095
        = ((-10 : Int) : ℚ) ∧
      scaleAndCalibrateDataFloat (4095 : Int).toNat ((-10 : Int) : ℚ) ((10 : Int) : ℚ) 1 0 4095
        = ((10 : Int) : ℚ) :=
  have h := scaleAndCalibrateDataFloat_identity_endpoints (-10) 10 4095 (by norm_num)
    (by norm_num) (by norm_num) (by norm_num) (by norm_num)
  ⟨by norm_num, h.1, h.2.1⟩

/-- C7 (as stated, refuted): with slope 1, offset `2047/2` (not zero), range `(-5, 5)`
and `maxCounts = 2047`, the raw counts 1 and 2 satisfy
`scale (1+2) = scale 1 + scale 2`: a non-zero offset does not rule out additivity. -/
theorem scaleAndCalibrateData_additive_with_nonzero_offset :
    (2047 / 2 : ℚ) ≠ 0 ∧ (2047 : Int) ≠ 0 ∧ 1 + 2 < 65536 ∧
      scaleAndCalibrateData (1 + 2) (-5) 5 1 (2047 / 2) 2047
        = scaleAndCalibrateData 1 (-5) 5 1 (2047 / 2) 2047
          + scaleAndCalibrateData 2 (-5) 5 1 (2047 / 2) 2047 := by
  refine ⟨by norm_num, by decide, by decide, ?_⟩
  norm_num [scaleAndCalibrateData]

/-- C7 (amended): for `maxCounts != 0` and raw counts `a`, `b` with `a+b` a valid
16-bit count, `scale (a+b) = scale a + scale b - scale 0`; hence
`scale (a+b) = scale a + scale b` exactly when
`(offset/maxCounts)*(maxVoltage - minVoltage) + minVoltage = 0`, and otherwise
`scale (a+b) != scale a + scale b`. -/
theorem scaleAndCalibrateData_additive_iff (a b : Nat) (minVoltage maxVoltage slope offset : ℚ)
    (maxCounts : Int) (_hM : maxCounts ≠ 0) (_hab : a + b < 65536) :
    scaleAndCalibrateData (a + b) minVoltage maxVoltage slope offset maxCounts
        = scaleAndCalibrateData a minVoltage maxVoltage slope offset maxCounts
          + scaleAndCalibrateData b minVoltage maxVoltage slope offset maxCounts
          - scaleAndCalibrateData 0 minVoltage maxVoltage slope offset maxCounts ∧
      (scaleAndCalibrateData (a + b) minVoltage maxVoltage slope offset maxCounts
          = scaleAndCalibrateData a minVoltage maxVoltage slope offset maxCounts
            + scaleAndCalibrateData b minVoltage maxVoltage slope offset maxCounts
        ↔ (offset / (maxCounts : ℚ)) * (maxVoltage - minVoltage) + minVoltage = 0) := by
  have key : scaleAndCalibrateData (a + b) minVoltage maxVoltage slope offset maxCounts
      = scaleAndCalibrateData a minVoltage maxVoltage slope offset maxCounts
        + scaleAndCalibrateData b minVoltage maxVoltage slope offset maxCounts
        - scaleAndCalibrateData 0 minVoltage maxVoltage slope offset maxCounts := by
    simp only [scaleAndCalibrateData, Nat.cast_add, Nat.cast_zero]
    ring
  have h0 : scaleAndCalibrateData 0 minVoltage maxVoltage slope offset maxCounts
      = (offset / (maxCounts : ℚ)) * (maxVoltage - minVoltage) + minVoltage := by
    simp [scaleAndCalibrateData]
  refine ⟨key, ?_⟩
  rw [key, h0]
  constructor
  · intro h
    linarith
  · intro h
    rw [h]
    ring

theorem scaleAndCalibrateData_additive_iff_witness :
    ((2047 : Int) ≠ 0 ∧ 1 + 2 < 65536) ∧
      (scaleAndCalibrateData (1 + 2) (-5) 5 1 3 2047
          = scaleAndCalibrateData 1 (-5) 5 1 3 2047
            + scaleAndCalibrateData 2 (-5) 5 1 3 2047
        ↔ ((3 : ℚ) / ((2047 : Int) : ℚ)) * (5 - (-5)) + (-5) = 0) :=
  ⟨by decide, (scaleAndCalibrateData_additive_iff 1 2 (-5) 5 1 3 2047 (by decide) (by decide)).2⟩

/-! ## Lemmas and theorems on `fillCalConstants` -/

theorem toDigitsCore_length_succ (b : Nat) :
    ∀ (fuel n : Nat) (ds : List Char),
      ds.length + 1 ≤ (Nat.toDigitsCore b (fuel + 1) n ds).length := by
  intro fuel
  induction fuel with
  | zero =>
    intro n ds
    simp [Nat.toDigitsCore]
  | succ k ih =>
    intro n ds
    rw [Nat.toDigitsCore]
    split
    · simp
    · have := ih (n / b) (Nat.digitChar (n % b) :: ds)
      simp only [List.length_cons] at this
      omega

theorem decimal_length_of_ge (c : Nat) (h : 10 ≤ c) : 2 ≤ (decimal c).length := by
  obtain ⟨k, rfl⟩ : ∃ k, c = k + 1 := ⟨c - 1, by omega⟩
  unfold decimal Nat.toDigits
  rw [Nat.toDigitsCore]
  have hne : ¬ ((k + 1) / 10 = 0) := by omega
  simp only [hne, if_false]
  have := toDigitsCore_length_succ 10 k ((k + 1) / 10) [Nat.digitChar ((k + 1) % 10)]
  simpa using this

theorem decimal_of_le (c : Nat) (h : c ≤ 9) : decimal c = [Nat.digitChar c] := by
  interval_cases c <;> rfl

theorem drop_before_delim (pre v : List Char) (n : Nat) (h : n ≤ pre.length) :
    (∃ p, (pre ++ '=' :: v).drop n = p ++ '=' :: v) ∧ (pre ++ '=' :: v).drop n ≠ v := by
  have e : (pre ++ '=' :: v).drop n = pre.drop n ++ '=' :: v := List.drop_append_of_le_length h
  refine ⟨⟨pre.drop n, e⟩, ?_⟩
  intro hv
  have := congrArg List.length hv
  rw [e] at this
  simp at this
  omega

theorem foldl_fillCalBody (sendMessage : List Char → List Char) (atof : List Char → ℚ)
    (c : Nat) : ∀ (l : List Nat) (g : Globals),
    (c ∈ l →
      (l.foldl (fillCalBody sendMessage atof) g).calSlope c
          = atof (slopeText (sendMessage (slope_string c))) ∧
        (l.foldl (fillCalBody sendMessage atof) g).calOffset c
          = atof (offsetText (sendMessage (offset_string c)))) ∧
    (c ∉ l →
      (l.foldl (fillCalBody sendMessage atof) g).calSlope c = g.calSlope c ∧
        (l.foldl (fillCalBody sendMessage atof) g).calOffset c = g.calOffset c) := by
  intro l
  induction l with
  | nil => intro g; simp
  | cons a l ih =>
    intro g
    rw [List.foldl_cons]
    have ih1 := ih (fillCalBody sendMessage atof g a)
    by_cases hc : c ∈ l
    · exact ⟨fun _ => ih1.1 hc, fun h => absurd (List.mem_cons_of_mem _ hc) h⟩
    · have h2 := ih1.2 hc
      constructor
      · intro h
        have hca : c = a := by
          rcases List.mem_cons.mp h with h | h
          · exact h
          · exact absurd h hc
        subst hca
        rw [h2.1, h2.2]
        simp [fillCalBody]
      · intro h
        have hca : c ≠ a := fun e => h (e ▸ List.mem_cons_self _ _)
        rw [h2.1, h2.2]
        simp [fillCalBody, Function.update_noteq hca]

/-- What `fillCalConstants` stores for a channel in `[low_channel, high_channel]`: `atof`
of the reply from its 12th, respectively 13th, character on. -/
theorem fillCalConstants_stores (sendMessage : List Char → List Char) (atof : List Char → ℚ)
    (low_channel high_channel : Nat) (g : Globals) (c : Nat) (h1 : low_channel ≤ c)
    (h2 : c ≤ high_channel) :
    (fillCalConstants sendMessage atof low_channel high_channel g).calSlope c
        = atof (slopeText (sendMessage (slope_string c))) ∧
      (fillCalConstants sendMessage atof low_channel high_channel g).calOffset c
        = atof (offsetText (sendMessage (offset_string c))) := by
  unfold fillCalConstants
  exact (foldl_fillCalBody sendMessage atof c _ g).1 (by rw [List.mem_range']; exact ⟨c - low_channel, by omega, by omega⟩)
/-- C9: for replies `AI{<c>}:SLOPE=<v>` and `AI{<c>}:OFFSET=<v>`, the fixed offsets 12
and 13 of `fillCalConstants` select exactly `<v>` when `0 <= c <= 9`; when `c >= 10`
the selected text is some text followed by `=<v>` (it begins at or before the `=`) and
is not `<v>`. -/
theorem fillCalConstants_fixed_offsets (c : Nat) (v : List Char) :
    (c ≤ 9 → slopeText (slopeResponse c v) = v ∧ offsetText (offsetResponse c v) = v) ∧
      (10 ≤ c →
        (∃ p, slopeText (slopeResponse c v) = p ++ '=' :: v) ∧
        slopeText (slopeResponse c v) ≠ v ∧
        (∃ p, offsetText (offsetResponse c v) = p ++ '=' :: v) ∧
        offsetText (offsetResponse c v) ≠ v) := by
  constructor
  · intro h
    simp [slopeText, slopeResponse, offsetText, offsetResponse, decimal_of_le c h]
  · intro h
    have hl := decimal_length_of_ge c h
    have es : slopeResponse c v = ("AI\x7b".toList ++ decimal c ++ "\x7d:SLOPE".toList) ++ '=' :: v := by
      simp [slopeResponse]
    have eo : offsetResponse c v
        = ("AI\x7b".toList ++ decimal c ++ "\x7d:OFFSET".toList) ++ '=' :: v := by
      simp [offsetResponse]
    have hs := drop_before_delim ("AI\x7b".toList ++ decimal c ++ "\x7d:SLOPE".toList) v 12
      (by simp; omega)
    have ho := drop_before_delim ("AI\x7b".toList ++ decimal c ++ "\x7d:OFFSET".toList) v 13
      (by simp; omega)
    unfold slopeText offsetText
    rw [es, eo]
    exact ⟨hs.1, hs.2, ho.1, ho.2⟩

theorem fillCalConstants_fixed_offsets_witness :
    (3 ≤ 9 ∧ 12 ≥ 10) ∧
      slopeText (slopeResponse 3 "1.002".toList) = "1.002".toList ∧
      offsetText (offsetResponse 3 "-0.5".toList) = "-0.5".toList ∧
      slopeText (slopeResponse 12 "1.002".toList) ≠ "1.002".toList ∧
      offsetText (offsetResponse 12 "-0.5".toList) ≠ "-0.5".toList :=
  ⟨by decide,
    ((fillCalConstants_fixed_offsets 3 "1.002".toList).1 (by decide)).1,
    ((fillCalConstants_fixed_offsets 3 "-0.5".toList).1 (by decide)).2,
    ((fillCalConstants_fixed_offsets 12 "1.002".toList).2 (by decide)).2.1,
    ((fillCalConstants_fixed_offsets 12 "-0.5".toList).2 (by decide)).2.2.2⟩

/-! ## Lemmas and theorems on `displayAndWriteData` -/

theorem displayFor_closed (g : Globals) (mem : Nat → Nat) (data : Nat) (maxCounts : Int)
    (binary_output : Bool) (st : DisplayState) (n : Nat) :
    (List.range n).foldl (displayForBody g mem data maxCounts binary_output) st
      = { currentData := st.currentData + n
          written := st.written ++ (List.range n).map (fun j =>
            if binary_output then
              Output.fwriteFloat (scaleAndCalibrateData (mem (data + (st.currentData + j)))
                (g.minVoltage : ℚ) (g.maxVoltage : ℚ) (g.calSlope j) (g.calOffset j) maxCounts)
            else
              Output.fprintfValue (scaleAndCalibrateData (mem (data + (st.currentData + j)))
                (g.minVoltage : ℚ) (g.maxVoltage : ℚ) (g.calSlope j) (g.calOffset j) maxCounts))
          reads := st.reads ++ (List.range n).map (fun j => data + (st.currentData + j)) } := by
  induction n with
  | zero => simp
  | succ n ih =>
    rw [List.range_succ, List.foldl_append, ih]
    simp [displayForBody, List.map_append, Nat.add_assoc]

theorem displayWhileBody_rowState (g : Globals) (mem : Nat → Nat) (data : Nat)
    (num_channels : Nat) (maxCounts : Int) (binary_output : Bool) (i : Nat) :
    displayWhileBody g mem data (num_channels : Int) maxCounts binary_output
        (rowState g mem data num_channels maxCounts binary_output i)
      = rowState g mem data num_channels maxCounts binary_output (i + 1) := by
  unfold displayWhileBody
  rw [Int.toNat_ofNat, displayFor_closed]
  have hr : List.range (i * num_channels + num_channels)
      = List.range (i * num_channels)
        ++ (List.range num_channels).map (fun j => i * num_channels + j) := by
    rw [List.range_add]
  cases binary_output <;>
    simp [rowState, intervalRecords, intervalRecord, intervalValue, List.range_succ,
      List.flatMap_append, hr, Nat.add_mul, Function.comp_def]

theorem lt_rows_iff (T num_channels i : Nat) (hc : 1 ≤ num_channels) :
    i < (T + num_channels - 1) / num_channels ↔ i * num_channels < T := by
  rw [Nat.lt_iff_add_one_le, Nat.le_div_iff_mul_le (by omega), Nat.add_mul]
  omega

theorem displayWhile_rowState (g : Globals) (mem : Nat → Nat) (data : Nat)
    (transferred : Int) (num_channels : Nat) (maxCounts : Int) (binary_output : Bool)
    (hc : 1 ≤ num_channels) :
    ∀ (r fuel i : Nat), i + r = (transferred.toNat + num_channels - 1) / num_channels →
      r + 1 ≤ fuel →
      displayWhile g mem data transferred (num_channels : Int) maxCounts binary_output fuel
          (rowState g mem data num_channels maxCounts binary_output i)
        = some (rowState g mem data num_channels maxCounts binary_output
            ((transferred.toNat + num_channels - 1) / num_channels)) := by
  intro r
  induction r with
  | zero =>
    intro fuel i hi hf
    obtain ⟨f, rfl⟩ : ∃ f, fuel = f + 1 := ⟨fuel - 1, by omega⟩
    have hnot : ¬ (i * num_channels < transferred.toNat) := by
      rw [← lt_rows_iff _ _ _ hc]
      omega
    have hcond : ¬ (((rowState g mem data num_channels maxCounts binary_output i).currentData
        : Int) < transferred) := by
      simp only [rowState]
      omega
    have hi2 : i = (transferred.toNat + num_channels - 1) / num_channels := by omega
    rw [displayWhile, if_neg hcond, ← hi2]
  | succ r ih =>
    intro fuel i hi hf
    obtain ⟨f, rfl⟩ : ∃ f, fuel = f + 1 := ⟨fuel - 1, by omega⟩
    have hlt : i * num_channels < transferred.toNat := by
      rw [← lt_rows_iff _ _ _ hc]
      omega
    have hcond : ((rowState g mem data num_channels maxCounts binary_output i).currentData
        : Int) < transferred := by
      simp only [rowState]
      omega
    rw [displayWhile, if_pos hcond, displayWhileBody_rowState]
    exact ih f (i + 1) (by omega) (by omega)

theorem displayAndWriteData_eq (g : Globals) (mem : Nat → Nat) (data : Nat)
    (transferred : Int) (num_channels : Nat) (maxCounts : Int) (binary_output : Bool)
    (hc : 1 ≤ num_channels) :
    displayAndWriteData g mem data transferred (num_channels : Int) maxCounts binary_output
      = some (rowState g mem data num_channels maxCounts binary_output
          ((transferred.toNat + num_channels - 1) / num_channels)) := by
  have hrows : (transferred.toNat + num_channels - 1) / num_channels ≤ transferred.toNat := by
    by_contra hcon
    have h1 := (lt_rows_iff transferred.toNat num_channels transferred.toNat hc).mp (by omega)
    have h2 : transferred.toNat * 1 ≤ transferred.toNat * num_channels :=
      Nat.mul_le_mul_left _ hc
    omega
  have h0 : (⟨0, [], []⟩ : DisplayState)
      = rowState g mem data num_channels maxCounts binary_output 0 := by
    simp [rowState, intervalRecords]
  unfold displayAndWriteData
  rw [h0]
  exact displayWhile_rowState g mem data transferred num_channels maxCounts binary_output hc
    ((transferred.toNat + num_channels - 1) / num_channels) (transferred.toNat + 1) 0
    (by omega) (by omega)

/-- C8: for `num_channels >= 1` and `transferred` a multiple of `num_channels`,
`displayAndWriteData` returns after emitting exactly `transferred/num_channels` sample
intervals (none when `transferred` is negative); interval `i` holds one value per
channel `j = 0 .. num_channels-1` in ascending order, the value being
`scaleAndCalibrateData(data[i*num_channels + j])` with `calSlope[j]`, `calOffset[j]`;
in CSV mode each value is comma-terminated and each interval ends in a newline, with no
header; in binary mode the same values in the same order are written as floats with no
separators. -/
theorem displayAndWriteData_records (g : Globals) (mem : Nat → Nat) (data : Nat)
    (transferred num_channels : Int) (maxCounts : Int) (binary_output : Bool)
    (hc : 1 ≤ num_channels) (hd : num_channels ∣ transferred) :
    displayAndWriteData g mem data transferred num_channels maxCounts binary_output
      = some
        { currentData := transferred.toNat
          written := intervalRecords g mem data num_channels.toNat maxCounts binary_output
            (transferred / num_channels).toNat
          reads := (List.range transferred.toNat).map (fun k => data + k) } := by
  obtain ⟨q, rfl⟩ := hd
  lift num_channels to Nat using (by omega) with n
  have hn : 1 ≤ n := by omega
  have e2 : ((n : Int) * q) / (n : Int) = q := Int.mul_ediv_cancel_left _ (by omega)
  rw [displayAndWriteData_eq g mem data _ n maxCounts binary_output hn, e2, Int.toNat_ofNat]
  by_cases hq : 0 ≤ q
  · lift q to Nat using hq with r
    have e1 : ((n : Int) * (r : Int)).toNat = n * r := by
      rw [← Nat.cast_mul, Int.toNat_ofNat]
    have e3 : (n * r + n - 1) / n = r := by
      have : n * r + n - 1 = (n - 1) + n * r := by omega
      rw [this, Nat.add_mul_div_left _ _ (by omega), Nat.div_eq_of_lt (by omega)]
      omega
    rw [e1, e3]
    simp [rowState, Nat.mul_comm]
  · have hneg : (n : Int) * q < 0 := Int.mul_neg_of_pos_of_neg (by omega) (by omega)
    have e1 : ((n : Int) * q).toNat = 0 := Int.toNat_eq_zero.mpr (by omega)
    have e3 : (0 + n - 1) / n = 0 := Nat.div_eq_of_lt (by omega)
    have e4 : q.toNat = 0 := Int.toNat_eq_zero.mpr (by omega)
    rw [e1, e3, e4]
    simp [rowState]

theorem displayAndWriteData_records_witness :
    ((1 : Int) ≤ 2 ∧ (2 : Int) ∣ 4) ∧
      displayAndWriteData ⟨fun _ => 1, fun _ => 0, -5, 5⟩ (fun i => i) 0 4 2 2047 false
        = some
          { currentData := (4 : Int).toNat
            written := intervalRecords ⟨fun _ => 1, fun _ => 0, -5, 5⟩ (fun i => i) 0
              (2 : Int).toNat 2047 false ((4 : Int) / 2).toNat
            reads := (List.range (4 : Int).toNat).map (fun k => 0 + k) } :=
  ⟨by decide,
    displayAndWriteData_records ⟨fun _ => 1, fun _ => 0, -5, 5⟩ (fun i => i) 0 4 2 2047 false
      (by decide) (by decide)⟩

/-- C10: for `num_channels >= 1` and `rate >= 1` without integer overflow, whenever a
pass of the poll loop over `buffer.numPoints = points` calls `displayAndWriteData` (on
`buffer.data` or on `&buffer.data[numPoints/2]`, with `transferred = numPoints/2`), the
call returns and every index of `buffer.data` it reads is smaller than `buffer_size/2`,
the number of 16-bit samples allocated, whether or not `num_channels` divides
`numPoints/2`. -/
theorem drain_reads_in_bounds (g : Globals) (mem : Nat → Nat) (maxCounts : Int)
    (binary_output : Bool) (num_channels : Nat) (rate : Int) (hc : 1 ≤ num_channels)
    (hr : 1 ≤ rate) (hov : (num_channels : Int) * rate + 127 < 536870912)
    (currIndex : Int) (v : PollVars) (call : DrainCall)
    (hcall : (pollBody currIndex (points num_channels rate) v).2 = some call) :
    ∃ st, displayAndWriteData g mem call.data.toNat call.transferred (num_channels : Int)
          maxCounts binary_output = some st ∧
      ∀ k ∈ st.reads, (k : Int) < (buffer_size num_channels rate).tdiv 2 := by
  have hp := points_eq num_channels rate (by omega) hov
  have hb := buffer_size_eq num_channels rate (by omega) hov
  have hm := points_emod_128 num_channels rate
  have hnr : (num_channels : Int) ≤ (num_channels : Int) * rate :=
    le_mul_of_one_le_right (Int.ofNat_nonneg _) hr
  generalize (num_channels : Int) * rate = p at hp hov hnr
  have hP : (num_channels : Int) ≤ points num_channels rate ∧
      128 ≤ points num_channels rate ∧ points num_channels rate < 536870912 := by
    rcases max_cases p 128 with ⟨h, _⟩ | ⟨h, _⟩ <;> rw [h] at hp <;> omega
  rw [hb]
  generalize points num_channels rate = P at hcall hm hP
  have hH : P.tdiv 2 = P / 2 := Int.tdiv_eq_ediv (by omega) (by omega)
  have hB : (P * 2 * 2).tdiv 2 = P * 2 := by
    rw [Int.tdiv_eq_ediv (by omega) (by omega)]
    omega
  rw [hB]
  refine ⟨_, displayAndWriteData_eq g mem _ _ num_channels maxCounts binary_output hc, ?_⟩
  intro k hk
  simp only [rowState, List.mem_map, List.mem_range] at hk
  obtain ⟨j, hj, rfl⟩ := hk
  have hrows := Nat.div_mul_le_self (call.transferred.toNat + num_channels - 1) num_channels
  have hcases : (call.data = 0 ∨ call.data = P / 2) ∧ call.transferred = P / 2 := by
    unfold pollBody at hcall
    rw [hH] at hcall
    split at hcall
    · simp only [Option.some.injEq] at hcall
      subst hcall
      simp
    · split at hcall
      · simp only [Option.some.injEq] at hcall
        subst hcall
        simp
      · simp at hcall
  obtain ⟨hd, ht⟩ := hcases
  push_cast
  rcases hd with hd | hd <;> omega

theorem drain_reads_in_bounds_witness :
    (1 ≤ 3 ∧ (1 : Int) ≤ 200 ∧ ((3 : Nat) : Int) * 200 + 127 < 536870912 ∧
        (pollBody 100 (points 3 200) ⟨Half.FIRSTHALF, 1⟩).2 = some ⟨320, 320⟩) ∧
      ∃ st, displayAndWriteData ⟨fun _ => 1, fun _ => 0, -5, 5⟩ (fun i => i)
            (⟨320, 320⟩ : DrainCall).data.toNat (⟨320, 320⟩ : DrainCall).transferred
            ((3 : Nat) : Int) 2047 false = some st ∧
        ∀ k ∈ st.reads, (k : Int) < (buffer_size 3 200).tdiv 2 :=
  ⟨by decide,
    drain_reads_in_bounds ⟨fun _ => 1, fun _ => 0, -5, 5⟩ (fun i => i) 2047 false 3 200
      (by decide) (by decide) (by decide) 100 ⟨Half.FIRSTHALF, 1⟩ ⟨320, 320⟩ (by decide)⟩

/-! ## The half-buffer handoff -/

/-- With a transfer size of exactly half the buffer the cursor only ever takes the
values 0 and `numPoints/2`, and the poll loop never calls `displayAndWriteData`. -/
theorem handoff_half_step_never_drains (H : Int) (hH : 0 < H) (n : Nat) :
    (handoffRun (2 * H) H n).drains = [] ∧
      (handoffRun (2 * H) H n).vars = ⟨Half.SECONDHALF, 0⟩ ∧
      ((handoffRun (2 * H) H n).currIndex = 0 ∨ (handoffRun (2 * H) H n).currIndex = H) := by
  have hd : (2 * H).tdiv 2 = H := by
    rw [Int.tdiv_eq_ediv (by omega) (by omega)]
    omega
  have hneg : ¬ H < 0 := by omega
  induction n with
  | zero => simp [handoffRun, handoffInit]
  | succ n ih =>
    obtain ⟨h1, h2, h3⟩ := ih
    have hs : handoffRun (2 * H) H (n + 1) = handoffStep (2 * H) H (handoffRun (2 * H) H n) := by
      simp [handoffRun, Function.iterate_succ_apply']
    rw [hs]
    generalize handoffRun (2 * H) H n = st at h1 h2 h3
    rcases h3 with h3 | h3
    · have hw : writerStep (2 * H) H st.currIndex = H := by
        rw [h3]
        unfold writerStep
        rw [Int.emod_eq_of_lt (by omega) (by omega)]
        omega
      simp [handoffStep, hw, pollBody, hd, h1, h2, hneg]
    · have hw : writerStep (2 * H) H st.currIndex = 0 := by
        rw [h3]
        unfold writerStep
        have : H + H = 2 * H := by omega
        rw [this, Int.emod_self]
      simp [handoffStep, hw, pollBody, hd, h1, h2, hneg]

theorem handoffStep_eq (numPoints s x : Int) (v : PollVars) (d : List DrainCall) (y : Int)
    (r : PollVars × Option DrainCall) (hw : writerStep numPoints s x = y)
    (hp : pollBody y numPoints v = r) :
    handoffStep numPoints s ⟨x, v, d⟩ = ⟨y, r.1, d ++ r.2.toList⟩ := by
  subst hw hp
  rfl

theorem pollBody_first (y numPoints c : Int) (h : numPoints.tdiv 2 < y) :
    pollBody y numPoints ⟨Half.SECONDHALF, c⟩
      = (⟨Half.FIRSTHALF, c + 1⟩, some ⟨0, numPoints.tdiv 2⟩) := by
  simp [pollBody, h]

theorem pollBody_second (y numPoints c : Int) (h : y < numPoints.tdiv 2) :
    pollBody y numPoints ⟨Half.FIRSTHALF, c⟩
      = (⟨Half.SECONDHALF, c + 1⟩, some ⟨numPoints.tdiv 2, numPoints.tdiv 2⟩) := by
  simp [pollBody, h]

theorem pollBody_wait_first (y numPoints c : Int) (h : ¬ numPoints.tdiv 2 < y) :
    pollBody y numPoints ⟨Half.SECONDHALF, c⟩ = (⟨Half.SECONDHALF, c⟩, none) := by
  simp [pollBody, h]

theorem pollBody_wait_second (y numPoints c : Int) (h : ¬ y < numPoints.tdiv 2) :
    pollBody y numPoints ⟨Half.FIRSTHALF, c⟩ = (⟨Half.FIRSTHALF, c⟩, none) := by
  simp [pollBody, h]

theorem handoffStep_cycleState (s : Int) (m : Nat) (hs : 0 < s) (hm : 2 ≤ m) (c : Int)
    (d : List DrainCall) (t : Nat) (ht : t < 2 * m) :
    handoffStep (2 * (m * s)) s (cycleState s m c d t) = cycleState s m c d (t + 1) := by
  have hH : 0 < (m : Int) * s := Int.mul_pos (by omega) hs
  have hd : (2 * ((m : Int) * s)).tdiv 2 = m * s := by
    rw [Int.tdiv_eq_ediv (by omega) (by omega)]
    omega
  have hts : (((t + 1 : Nat) : Int)) * s = t * s + s := by
    push_cast
    ring
  have hmono : ∀ a b : Nat, a ≤ b → (a : Int) * s ≤ b * s := fun a b hab =>
    Int.mul_le_mul_of_nonneg_right (by omega) hs.le
  have hmono2 : ∀ a b : Nat, a < b → (a : Int) * s < b * s := fun a b hab =>
    Int.mul_lt_mul_of_pos_right (by omega) hs
  have h2m : ((2 * m : Nat) : Int) * s = 2 * (m * s) := by
    push_cast
    ring
  have ht0 : 0 ≤ (t : Int) * s := Int.mul_nonneg (by omega) hs.le
  have hlt2 := hmono (t + 1) (2 * m) (by omega)
  by_cases h1 : t + 1 ≤ m
  · -- the writer is still inside the first half
    have e0 : cycleState s m c d t = ⟨t * s, ⟨Half.SECONDHALF, c⟩, d⟩ := by
      simp only [cycleState, if_pos (show t ≤ m by omega)]
    have e1 : cycleState s m c d (t + 1) = ⟨(t + 1 : Nat) * s, ⟨Half.SECONDHALF, c⟩, d⟩ := by
      simp only [cycleState, if_pos h1]
    have hle := hmono (t + 1) m h1
    have hw : writerStep (2 * (m * s)) s (t * s) = (t + 1 : Nat) * s := by
      unfold writerStep
      rw [hts] at hle ⊢
      exact Int.emod_eq_of_lt (by omega) (by omega)
    rw [e0, e1, handoffStep_eq _ _ _ _ _ _ _ hw
      (pollBody_wait_first _ _ _ (by rw [hd]; omega))]
    simp
  · by_cases h2 : t = m
    · -- the first step past the half boundary
      subst h2
      have e0 : cycleState s t c d t = ⟨t * s, ⟨Half.SECONDHALF, c⟩, d⟩ := by
        simp only [cycleState, if_pos (le_refl t)]
      have e1 : cycleState s t c d (t + 1)
          = ⟨(t + 1 : Nat) * s, ⟨Half.FIRSTHALF, c + 1⟩, d ++ [⟨0, t * s⟩]⟩ := by
        simp only [cycleState, if_neg h1, if_pos (show t + 1 < 2 * t by omega)]
      have hlt := hmono2 (t + 1) (2 * t) (by omega)
      have hw : writerStep (2 * (t * s)) s (t * s) = (t + 1 : Nat) * s := by
        unfold writerStep
        rw [hts, h2m] at *
        exact Int.emod_eq_of_lt (by omega) (by omega)
      have hgt : (t : Int) * s < (t + 1 : Nat) * s := hmono2 t (t + 1) (by omega)
      rw [e0, e1, handoffStep_eq _ _ _ _ _ _ _ hw
        (pollBody_first _ _ _ (by rw [hd]; exact hgt)), hd]
      simp
    · by_cases h3 : t + 1 < 2 * m
      · -- the writer is inside the second half
        have e0 : cycleState s m c d t
            = ⟨t * s, ⟨Half.FIRSTHALF, c + 1⟩, d ++ [⟨0, m * s⟩]⟩ := by
          simp only [cycleState, if_neg (show ¬ t ≤ m by omega), if_pos ht]
        have e1 : cycleState s m c d (t + 1)
            = ⟨(t + 1 : Nat) * s, ⟨Half.FIRSTHALF, c + 1⟩, d ++ [⟨0, m * s⟩]⟩ := by
          simp only [cycleState, if_neg h1, if_pos h3]
        have hlt := hmono2 (t + 1) (2 * m) h3
        have hw : writerStep (2 * (m * s)) s (t * s) = (t + 1 : Nat) * s := by
          unfold writerStep
          rw [hts, h2m] at *
          exact Int.emod_eq_of_lt (by omega) (by omega)
        have hge := hmono m (t + 1) (by omega)
        rw [e0, e1, handoffStep_eq _ _ _ _ _ _ _ hw
          (pollBody_wait_second _ _ _ (by rw [hd]; omega))]
        simp
      · -- the writer wraps to the start of the buffer
        have ht2 : t + 1 = 2 * m := by omega
        have e0 : cycleState s m c d t
            = ⟨t * s, ⟨Half.FIRSTHALF, c + 1⟩, d ++ [⟨0, m * s⟩]⟩ := by
          simp only [cycleState, if_neg (show ¬ t ≤ m by omega), if_pos ht]
        have e1 : cycleState s m c d (t + 1)
            = ⟨0, ⟨Half.SECONDHALF, c + 1 + 1⟩,
                d ++ [⟨0, m * s⟩] ++ [⟨m * s, m * s⟩]⟩ := by
          simp only [cycleState, if_neg h1, if_neg h3]
        have hw : writerStep (2 * (m * s)) s (t * s) = 0 := by
          unfold writerStep
          rw [← hts, ht2, h2m, Int.emod_self]
        rw [e0, e1, handoffStep_eq _ _ _ _ _ _ _ hw
          (pollBody_second _ _ _ (by rw [hd]; exact hH)), hd]
        simp

theorem iterate_cycleState (s : Int) (m : Nat) (hs : 0 < s) (hm : 2 ≤ m) (c : Int)
    (d : List DrainCall) (t : Nat) (ht : t ≤ 2 * m) :
    (handoffStep (2 * (m * s)) s)^[t] ⟨0, ⟨Half.SECONDHALF, c⟩, d⟩ = cycleState s m c d t := by
  induction t with
  | zero => simp [cycleState]
  | succ t ih =>
    rw [Function.iterate_succ_apply', ih (by omega)]
    exact handoffStep_cycleState s m hs hm c d t (by omega)

/-- One full buffer cycle (`2*m` writer steps, each followed by a consumer tick) from
cursor 0 with `lastHalfRead = SECONDHALF` drains the first half, then the second
half, and returns to cursor 0 with `lastHalfRead = SECONDHALF`. -/
theorem handoff_cycle (s : Int) (m : Nat) (hs : 0 < s) (hm : 2 ≤ m) (c : Int)
    (d : List DrainCall) :
    (handoffStep (2 * (m * s)) s)^[2 * m] ⟨0, ⟨Half.SECONDHALF, c⟩, d⟩
      = ⟨0, ⟨Half.SECONDHALF, c + 1 + 1⟩, d ++ [⟨0, m * s⟩] ++ [⟨m * s, m * s⟩]⟩ := by
  rw [iterate_cycleState s m hs hm c d (2 * m) (le_refl _)]
  simp only [cycleState, if_neg (show ¬ 2 * m ≤ m by omega), if_neg (lt_irrefl _)]

/-- For a transfer size `s > 0` with `numPoints/2 = m*s` and `m >= 2` (so `s` is a
proper divisor of `numPoints/2`), after `k` full buffer cycles the poll loop has drained
first half, second half, first half, ... : each half once per cycle, in order. -/
theorem handoff_cycles (s : Int) (m : Nat) (hs : 0 < s) (hm : 2 ≤ m) (k : Nat) :
    handoffRun (2 * (m * s)) s (k * (2 * m))
      = ⟨0, ⟨Half.SECONDHALF, 2 * k⟩,
          (List.range k).flatMap (fun _ => [⟨0, m * s⟩, ⟨m * s, m * s⟩])⟩ := by
  induction k with
  | zero => simp [handoffRun, handoffInit]
  | succ k ih =>
    have e : (k + 1) * (2 * m) = 2 * m + k * (2 * m) := by ring
    unfold handoffRun at ih ⊢
    rw [e, Function.iterate_add_apply, ih, handoff_cycle s m hs hm]
    simp [List.range_succ, List.flatMap_append]
    ring

/-- C1 (the code at the failing input): for 4 channels at rate 1000 the buffer has
`numPoints = 4096`, and `main` passes the transfer size `numPoints/2 = 2048`; with the
writer advancing by 2048 modulo 4096 and the poll loop ticking after every writer step,
after any number `n` of steps the poll loop has called `displayAndWriteData` not once:
the cursor is 0 or 2048, never greater than `numPoints/2`, and `lastHalfRead` stays
`SECONDHALF`. -/
theorem handoff_never_drains_at_half_step (n : Nat) :
    points 4 1000 = 4096 ∧ (points 4 1000).tdiv 2 = 2048 ∧
      (handoffRun (points 4 1000) ((points 4 1000).tdiv 2) n).drains = [] ∧
      (handoffRun (points 4 1000) ((points 4 1000).tdiv 2) n).vars
        = ⟨Half.SECONDHALF, 0⟩ ∧
      ((handoffRun (points 4 1000) ((points 4 1000).tdiv 2) n).currIndex = 0 ∨
        (handoffRun (points 4 1000) ((points 4 1000).tdiv 2) n).currIndex = 2048) := by
  have hp : points 4 1000 = 2 * 2048 := by decide
  have hh : (points 4 1000).tdiv 2 = 2048 := by decide
  have h := handoff_half_step_never_drains 2048 (by decide) n
  rw [hh, hp]
  exact ⟨by decide, by decide, h.1, h.2.1, h.2.2⟩

end Daqflex
